import Mathlib

/-!
Verification of the LiteMark bookmark-store layer (`src/api/vercel/_lib/db.ts`),
the bookmarks HTTP handler (`src/api/vercel/bookmarks/index.ts`) and the auth
gate (`src/api/vercel/_lib/auth.ts`).

The Postgres table `bookmarks` is embedded as a `List BookmarkRecord` in row
(insertion) sequence; the `category_order` table as a `List String` already
sorted by its `order` column; the `settings` table as a record of three
optional stored values.  SQL semantics that the source relies on are modelled
explicitly; in particular a `WHERE category = $1` comparison with a NULL
parameter matches no rows (`sqlEqCat`), and `COALESCE(MAX("order"), -1)` is
`sqlMax`.
-/

/-- Whitespace predicate used by the model of JavaScript `trim()`. -/
def jsWs (c : Char) : Bool := c.isWhitespace

/-- Models JavaScript `String.prototype.trim()`: drop leading and trailing
whitespace code points. -/
def jsTrim (s : String) : String :=
  ⟨((s.data.dropWhile jsWs).reverse.dropWhile jsWs).reverse⟩

/-- A string with no leading or trailing whitespace (a fixed point of `jsTrim`). -/
def noEdgeWs (l : List Char) : Bool :=
  (l.head?.all (fun a => !jsWs a)) && (l.getLast?.all (fun z => !jsWs z))

def isTrimmed (s : String) : Bool := noEdgeWs s.data

/-- Models `db.ts` line 81: `(category ?? '').trim() || ''` (the `|| ''` is
the identity on the result of `trim`). -/
def normalizeCategory (category : Option String) : String :=
  jsTrim (category.getD "")

/-- The `${category || null}` coercion used when storing or querying a
category: the empty string becomes SQL NULL. -/
def toStored (c : String) : Option String :=
  if c = "" then none else some c

/-- The `x || null` coercion on nullable strings (empty string becomes NULL). -/
def orNullStr : Option String → Option String
  | some s => if s = "" then none else some s
  | none => none

/-- Postgres evaluation of `stored_column = $param`: a NULL on either side
makes the comparison unknown, so the row does not match. -/
def sqlEqCat (stored param : Option String) : Bool :=
  match param, stored with
  | some p, some s => s == p
  | _, _ => false

/-- The SQL aggregate `COALESCE(MAX(x), -1)` over the listed values. -/
def sqlMax : List Int → Int
  | [] => -1
  | o :: rest => rest.foldl max o

/-- A row of the `bookmarks` table.  `category` and `description` are nullable
columns, `order` is the `"order"` INTEGER column. -/
structure BookmarkRecord where
  id : String
  title : String
  url : String
  category : Option String
  description : Option String
  visible : Bool
  order : Int
deriving DecidableEq, Repr

/-- Input of `createBookmark` (the `Omit` of `BookmarkRecord` without `id`
and `order`): absent optional fields are `none`. -/
structure CreateData where
  title : String
  url : String
  category : Option String
  description : Option String
  visible : Option Bool
deriving DecidableEq, Repr

/-- The object literal `{...data, id, order, category: category || null}`
returned by `createBookmark`: `description` and `visible` are spread from the
input verbatim. -/
structure CreateReturn where
  id : String
  title : String
  url : String
  category : Option String
  description : Option String
  visible : Option Bool
  order : Int
deriving DecidableEq, Repr

/-- Input of `updateBookmark` (the `Partial` record of all fields but `id`).  The
outer `Option` on `category` and `description` is JavaScript `undefined`
(field absent); the inner one is `null`. -/
structure UpdatePatch where
  title : Option String
  url : Option String
  category : Option (Option String)
  description : Option (Option String)
  visible : Option Bool
  order : Option Int
deriving DecidableEq, Repr

/-- Models `SELECT COALESCE(MAX("order"), -1) FROM bookmarks WHERE category = $param`. -/
def maxOrderIn (s : List BookmarkRecord) (param : Option String) : Int :=
  sqlMax ((s.filter (fun r => sqlEqCat r.category param)).map (fun r => r.order))

/-- The row-to-record mapping used by `listBookmarks` and by the rows returned
from `updateBookmark`/`deleteBookmark`: `(row.category) || null`,
`(row.description) || null`, `row.visible !== false` and `(row.order) || 0`
(the last two are the identity on `Bool` and `Int`). -/
def readRow (r : BookmarkRecord) : BookmarkRecord :=
  { r with category := orNullStr r.category, description := orNullStr r.description }

/-- The row inserted by `createBookmark`: normalized category stored via
`${category || null}`, order = `COALESCE(MAX("order"), -1) + 1` in that
category, `description || null`, `visible ?? true`. -/
def createdRow (data : CreateData) (freshId : String) (s : List BookmarkRecord) :
    BookmarkRecord :=
  { id := freshId
    title := data.title
    url := data.url
    category := toStored (normalizeCategory data.category)
    description := orNullStr data.description
    visible := data.visible.getD true
    order := maxOrderIn s (toStored (normalizeCategory data.category)) + 1 }

/-- Models `db.ts` lines 132-159, `createBookmark`.  `freshId` stands for the value
produced by `crypto.randomUUID()`.  Returns the object literal
`{...data, id, order, category: category || null}` and the new table. -/
def createBookmark (data : CreateData) (freshId : String) (s : List BookmarkRecord) :
    CreateReturn × List BookmarkRecord :=
  ({ id := freshId
     title := data.title
     url := data.url
     category := toStored (normalizeCategory data.category)
     description := data.description
     visible := data.visible
     order := maxOrderIn s (toStored (normalizeCategory data.category)) + 1 },
   s ++ [createdRow data freshId s])

/-- Models `UPDATE bookmarks SET "order" = "order" - 1 WHERE category = $param
AND "order" > $threshold`. -/
def shiftDown (param : Option String) (threshold : Int) (s : List BookmarkRecord) :
    List BookmarkRecord :=
  s.map (fun r =>
    if sqlEqCat r.category param && decide (threshold < r.order) then
      { r with order := r.order - 1 }
    else r)

/-- The table `updateBookmark` sees after its conditional gap-closing UPDATE:
unchanged when `newCategory === oldCategory`, otherwise every bookmark of the
old category with a larger order is shifted down. -/
def updateMid (patch : UpdatePatch) (cur : BookmarkRecord) (s : List BookmarkRecord) :
    List BookmarkRecord :=
  if normalizeCategory (patch.category.getD none) = normalizeCategory cur.category
  then s
  else shiftDown (toStored (normalizeCategory cur.category)) cur.order s

/-- The order written by the final UPDATE: `data.order` was overwritten with
`max + 1` in the new category when the (normalized) category changed;
otherwise it is `data.order !== undefined ? data.order : current.order`. -/
def updEffOrder (patch : UpdatePatch) (cur : BookmarkRecord) (s : List BookmarkRecord) :
    Int :=
  if normalizeCategory (patch.category.getD none) = normalizeCategory cur.category
  then patch.order.getD cur.order
  else maxOrderIn (updateMid patch cur s)
         (toStored (normalizeCategory (patch.category.getD none))) + 1

/-- The row written by the final UPDATE of `updateBookmark` (fields defaulted from
the current row when absent from the patch). -/
def updatedRow (bid : String) (patch : UpdatePatch) (cur : BookmarkRecord)
    (s : List BookmarkRecord) : BookmarkRecord :=
  { id := bid
    title := patch.title.getD cur.title
    url := patch.url.getD cur.url
    category := match patch.category with
      | some pc => toStored (normalizeCategory pc)
      | none => orNullStr cur.category
    description := match patch.description with
      | some pd => orNullStr pd
      | none => orNullStr cur.description
    visible := patch.visible.getD cur.visible
    order := updEffOrder patch cur s }

/-- The table after `updateBookmark` (given the fetched current row). -/
def updateState (bid : String) (patch : UpdatePatch) (cur : BookmarkRecord)
    (s : List BookmarkRecord) : List BookmarkRecord :=
  (updateMid patch cur s).map
    (fun r => if r.id == bid then updatedRow bid patch cur s else r)

/-- Models `db.ts` lines 161-241, `updateBookmark`.  Returns the mapped row that the
final SELECT produces (or `null`), together with the new table state. -/
def updateBookmark (bid : String) (patch : UpdatePatch) (s : List BookmarkRecord) :
    Option BookmarkRecord × List BookmarkRecord :=
  match s.find? (fun r => r.id == bid) with
  | none => (none, s)
  | some current =>
    (((updateState bid patch current s).find? (fun r => r.id == bid)).map readRow,
     updateState bid patch current s)

/-- The table after `deleteBookmark` (given the fetched row): gap-closing
shift in the normalized category of the deleted row, then the DELETE. -/
def deleteState (bid : String) (deleted : BookmarkRecord) (s : List BookmarkRecord) :
    List BookmarkRecord :=
  (shiftDown (toStored (normalizeCategory deleted.category)) deleted.order s).filter
    (fun r => !(r.id == bid))

/-- Models `db.ts` lines 243-281, `deleteBookmark`. -/
def deleteBookmark (bid : String) (s : List BookmarkRecord) :
    Option BookmarkRecord × List BookmarkRecord :=
  match s.find? (fun r => r.id == bid) with
  | none => (none, s)
  | some deleted => (some (readRow deleted), deleteState bid deleted s)

/-- Models `UPDATE bookmarks SET "order" = $v WHERE id = $bid`. -/
def setOrder (bid : String) (v : Int) (s : List BookmarkRecord) : List BookmarkRecord :=
  s.map (fun r => if r.id == bid then { r with order := v } else r)

/-- Sequentially apply `setOrder id n` for each `(n, id)` pair. -/
def applyOrderUpdates (ps : List (Nat × String)) (s : List BookmarkRecord) :
    List BookmarkRecord :=
  ps.foldl (fun st p => setOrder p.2 (p.1 : Int) st) s

/-- Models `db.ts` lines 283-313, `reorderBookmarks` (state transformation; the
function then returns `listBookmarks()`).  The first loop writes the
positional index of each listed id; the second walks the remaining ids in
table order with a counter starting at `order.length`. -/
def reorderBookmarks (order : List String) (s : List BookmarkRecord) :
    List BookmarkRecord :=
  let s1 := applyOrderUpdates order.enum s
  let allIds := s1.map (fun r => r.id)
  let missingIds := allIds.filter (fun bid => !(order.contains bid))
  applyOrderUpdates (missingIds.enumFrom order.length) s1

/-- JavaScript `Array.prototype.indexOf`: first index, or `-1` when absent. -/
def jsIndexOf (l : List String) (c : String) : Int :=
  match l.findIdx? (fun x => x == c) with
  | some i => (i : Int)
  | none => -1

/-- The comparator passed to `sort` in `listBookmarks` (`db.ts` lines 112-127). -/
def cmpRecords (catOrder : List String) (a b : BookmarkRecord) : Int :=
  let indexA := jsIndexOf catOrder (normalizeCategory a.category)
  let indexB := jsIndexOf catOrder (normalizeCategory b.category)
  if indexA ≠ indexB then
    if indexA = -1 then 1
    else if indexB = -1 then -1
    else indexA - indexB
  else a.order - b.order

/-- Models `db.ts` lines 85-130, `listBookmarks`: SQL `ORDER BY "order" ASC`
(modelled as a stable sort of the table rows), row mapping, then the stable
JavaScript sort by `cmpRecords`.  `catOrder` is the `category_order` table
already sorted by its own `order` column. -/
def listBookmarks (catOrder : List String) (s : List BookmarkRecord) :
    List BookmarkRecord :=
  let rows := s.mergeSort (fun a b => decide (a.order ≤ b.order))
  let bookmarks := rows.map readRow
  bookmarks.mergeSort (fun a b => decide (cmpRecords catOrder a b ≤ 0))

/-- Category rank induced by the comparator: listed categories keep their
index, unlisted ones rank after every listed one. -/
def rankOf (catOrder : List String) (r : BookmarkRecord) : Int :=
  let i := jsIndexOf catOrder (normalizeCategory r.category)
  if i = -1 then (catOrder.length : Int) else i

/-- The ordering claimed by the spec for `listBookmarks` output: unlisted
categories never precede listed ones, listed categories appear by ascending
category-order index, and records of one category appear by ascending order. -/
def listedBefore (catOrder : List String) (a b : BookmarkRecord) : Prop :=
  (jsIndexOf catOrder (normalizeCategory a.category) = -1 →
    jsIndexOf catOrder (normalizeCategory b.category) = -1) ∧
  (jsIndexOf catOrder (normalizeCategory b.category) ≠ -1 →
    jsIndexOf catOrder (normalizeCategory a.category) ≤
      jsIndexOf catOrder (normalizeCategory b.category)) ∧
  (normalizeCategory a.category = normalizeCategory b.category →
    a.order ≤ b.order)

/-- Stored rows of the `settings` table (`none` = key absent). -/
structure SettingsStore where
  theme : Option String
  siteTitle : Option String
  siteIcon : Option String
deriving DecidableEq, Repr

/-- A `Partial<Settings>` patch. -/
structure SettingsPatch where
  theme : Option String
  siteTitle : Option String
  siteIcon : Option String
deriving DecidableEq, Repr

/-- The merged settings object returned by `getSettings`. -/
structure SettingsView where
  theme : String
  siteTitle : String
  siteIcon : String
deriving DecidableEq, Repr

def validThemes : List String :=
  ["light", "dark", "forest", "ocean", "sunrise", "twilight"]

/-- Models `db.ts` lines 333-360, `getSettings`: stored values merged over defaults. -/
def getSettings (st : SettingsStore) : SettingsView :=
  { theme := st.theme.getD "light"
    siteTitle := st.siteTitle.getD "个人书签"
    siteIcon := st.siteIcon.getD "🔖" }

/-- Models `db.ts` lines 362-407, `updateSettings`.  Each validation guard tests the
field with JavaScript truthiness (`data.theme && ...`), so an empty string is
never validated; each upsert guard tests `!== undefined`.  The second
component is the settings table after the call (unchanged when the function
throws, since every throw precedes every write). -/
def updateSettings (data : SettingsPatch) (st : SettingsStore) :
    Except String SettingsView × SettingsStore :=
  if data.theme.any (fun t => !(t == "") && !(validThemes.contains t)) then
    (.error "theme must be one of light/dark/forest/ocean/sunrise/twilight", st)
  else if data.siteTitle.any (fun t => !(t == "") && decide (t.length > 60)) then
    (.error "siteTitle must not exceed 60 characters", st)
  else if data.siteIcon.any (fun t => !(t == "") && decide (t.length > 512)) then
    (.error "siteIcon must not exceed 512 characters", st)
  else
    let st1 := if data.theme.isSome then { st with theme := data.theme } else st
    let st2 := if data.siteTitle.isSome then { st1 with siteTitle := data.siteTitle } else st1
    let st3 := if data.siteIcon.isSome then { st2 with siteIcon := data.siteIcon } else st2
    (.ok (getSettings st3), st3)

/-- Spec-side predicate: the theme field of the patch, when present, is
either empty (skipped by the truthiness guard) or a valid theme. -/
def themeOk (p : SettingsPatch) : Bool :=
  p.theme.all (fun t => t == "" || validThemes.contains t)

def titleOk (p : SettingsPatch) : Bool :=
  p.siteTitle.all (fun t => decide (t.length ≤ 60))

def iconOk (p : SettingsPatch) : Bool :=
  p.siteIcon.all (fun t => decide (t.length ≤ 512))

/-- Spec-side merge: upsert exactly the provided fields. -/
def applySettingsPatch (p : SettingsPatch) (st : SettingsStore) : SettingsStore :=
  { theme := if p.theme.isSome then p.theme else st.theme
    siteTitle := if p.siteTitle.isSome then p.siteTitle else st.siteTitle
    siteIcon := if p.siteIcon.isSome then p.siteIcon else st.siteIcon }

/-- Modelled from the spec: a bearer token carried by a request, with its
validity (signature and expiry check of `jwt.verify`) abstracted to a flag,
since `verifyToken` delegates to the external `jsonwebtoken` library. -/
structure AuthToken where
  username : String
  valid : Bool
deriving DecidableEq, Repr

structure ApiRequest where
  bearer : Option AuthToken
deriving DecidableEq, Repr

/-- Modelled from the spec: `getAuthFromRequest` is imported by the bookmarks
handler but is not present under src/; per the spec it yields the identity
exactly when a valid bearer token is presented, and null otherwise. -/
def getAuthFromRequest (req : ApiRequest) : Option String :=
  match req.bearer with
  | some tk => if tk.valid then some tk.username else none
  | none => none

/-- Models `bookmarks/index.ts` lines 87-101, the GET branch:
`auth ? allBookmarks : allBookmarks.filter(item => item.visible !== false)`. -/
def handleGetBookmarks (req : ApiRequest) (catOrder : List String)
    (s : List BookmarkRecord) : List BookmarkRecord :=
  let auth := getAuthFromRequest req
  let allBookmarks := listBookmarks catOrder s
  match auth with
  | some _ => allBookmarks
  | none => allBookmarks.filter (fun r => r.visible)

def idsOf (s : List BookmarkRecord) : List String := s.map (fun r => r.id)

/-- Table well-formedness: `id` is the primary key. -/
def wfIds (s : List BookmarkRecord) : Prop := (idsOf s).Nodup

/-- A stored category is either NULL or a nonempty trimmed string — the shape
in which `createBookmark`/`updateBookmark` persist categories. -/
def normalizedRow (r : BookmarkRecord) : Bool :=
  match r.category with
  | none => true
  | some d => isTrimmed d && !(d == "")

def wfState (s : List BookmarkRecord) : Prop :=
  wfIds s ∧ ∀ r ∈ s, normalizedRow r = true

/-- The rows stored under category `c` (a nonempty category name). -/
def recordsIn (c : String) (s : List BookmarkRecord) : Multiset BookmarkRecord :=
  Multiset.filter (fun r => r.category = some c) (↑s)

def ordersIn (c : String) (s : List BookmarkRecord) : Multiset Int :=
  Multiset.map (fun r => r.order) (recordsIn c s)

/-- The spec invariant for one category: the multiset of order values is
exactly 0, 1, ..., n-1. -/
def catInvariant (c : String) (s : List BookmarkRecord) : Prop :=
  ordersIn c s =
    Multiset.map (fun i : ℕ => (i : Int)) (Multiset.range (Multiset.card (ordersIn c s)))

/-- One store mutation from the operation set of the claim. -/
inductive BookmarkOp where
  | create (data : CreateData) (freshId : String)
  | update (bid : String) (patch : UpdatePatch)
  | delete (bid : String)
deriving DecidableEq, Repr

def applyOp (op : BookmarkOp) (s : List BookmarkRecord) : List BookmarkRecord :=
  match op with
  | .create data freshId => (createBookmark data freshId s).2
  | .update bid patch => (updateBookmark bid patch s).2
  | .delete bid => (deleteBookmark bid s).2

def applyOps (ops : List BookmarkOp) (s : List BookmarkRecord) : List BookmarkRecord :=
  ops.foldl (fun st op => applyOp op st) s

/-- Side conditions of the amended invariant claim: created ids are fresh
(the `crypto.randomUUID()` contract), and update patches carry the category
field and never carry an explicit order. -/
def validOp (op : BookmarkOp) (s : List BookmarkRecord) : Bool :=
  match op with
  | .create _ freshId => !((idsOf s).contains freshId)
  | .update _ patch => patch.category.isSome && patch.order.isNone
  | .delete _ => true

def validOps (ops : List BookmarkOp) (s : List BookmarkRecord) : Bool :=
  match ops with
  | [] => true
  | op :: rest => validOp op s && validOps rest (applyOp op s)

/-- Concrete rows used by witnesses and counterexamples. -/
def rowW0 : BookmarkRecord :=
  { id := "a", title := "A", url := "https://a", category := some "w",
    description := none, visible := true, order := 0 }

def rowW1 : BookmarkRecord :=
  { id := "b", title := "B", url := "https://b", category := some "w",
    description := none, visible := true, order := 1 }

def rowU0 : BookmarkRecord :=
  { id := "u1", title := "U1", url := "https://u1", category := none,
    description := none, visible := true, order := 0 }

def rowU1 : BookmarkRecord :=
  { id := "u2", title := "U2", url := "https://u2", category := none,
    description := none, visible := false, order := 1 }

def plainCreate (t : String) : CreateData :=
  { title := t, url := "https://x", category := none, description := none,
    visible := none }

/-- Models `SELECT * FROM bookmarks WHERE id = $bid` taking the first returned row. -/
def getRec (s : List BookmarkRecord) (bid : String) : Option BookmarkRecord :=
  s.find? (fun r => r.id == bid)

/-- A patch which only sets the title (`category` and `order` absent). -/
def titleOnlyPatch : UpdatePatch :=
  { title := some "t", url := none, category := none, description := none,
    visible := none, order := none }

/-- A patch moving a bookmark to category v. -/
def moveToVPatch : UpdatePatch :=
  { title := none, url := none, category := some (some "v"), description := none,
    visible := none, order := none }

def demoS : List BookmarkRecord := [rowW0, rowW1]

def demoOps : List BookmarkOp :=
  [ .create { title := "T", url := "https://t", category := some "w",
              description := none, visible := none } "n1",
    .update "a" moveToVPatch,
    .delete "b" ]

instance (c : String) (s : List BookmarkRecord) : Decidable (catInvariant c s) := by
  unfold catInvariant; infer_instance

instance (s : List BookmarkRecord) : Decidable (wfState s) := by
  unfold wfState wfIds; infer_instance

instance (s : List BookmarkRecord) : Decidable (wfIds s) := by
  unfold wfIds; infer_instance

/-! ### Lemmas about the `trim` model -/

theorem dropWhile_head_false {α : Type} (p : α → Bool) :
    ∀ (l : List α) (a : α) (t : List α), l.dropWhile p = a :: t → p a = false := by
  intro l
  induction l with
  | nil => intro a t h; simp [List.dropWhile] at h
  | cons b bt ih =>
    intro a t h
    rw [List.dropWhile_cons] at h
    by_cases hb : p b
    · rw [if_pos hb] at h; exact ih a t h
    · rw [if_neg hb] at h
      cases h
      exact Bool.of_not_eq_true hb

theorem dropWhile_eq_self_of_head {α : Type} (p : α → Bool) (l : List α)
    (h : ∀ a ∈ l.head?, p a = false) : l.dropWhile p = l := by
  cases l with
  | nil => rfl
  | cons a t =>
    have ha : p a = false := h a (by simp)
    rw [List.dropWhile_cons, if_neg (by simp [ha])]

theorem getLast?_dropWhile {α : Type} (p : α → Bool) :
    ∀ (l : List α), l.dropWhile p ≠ [] → (l.dropWhile p).getLast? = l.getLast? := by
  intro l
  induction l with
  | nil => intro h; simp [List.dropWhile] at h
  | cons a t ih =>
    intro h
    rw [List.dropWhile_cons] at h ⊢
    by_cases hb : p a
    · rw [if_pos hb] at h ⊢
      have ht : t ≠ [] := by
        intro he; rw [he] at h; simp [List.dropWhile] at h
      rw [ih h]
      cases t with
      | nil => exact absurd rfl ht
      | cons b bt => rw [List.getLast?_cons_cons]
    · rw [if_neg hb]

theorem jsTrim_data (s : String) :
    (jsTrim s).data = ((s.data.dropWhile jsWs).reverse.dropWhile jsWs).reverse := rfl

theorem isTrimmed_jsTrim (s : String) : isTrimmed (jsTrim s) = true := by
  unfold isTrimmed noEdgeWs
  rw [jsTrim_data]
  cases hB : (s.data.dropWhile jsWs).reverse.dropWhile jsWs with
  | nil => simp
  | cons b bt =>
    have hA : s.data.dropWhile jsWs ≠ [] := by
      intro he
      rw [he] at hB
      simp [List.dropWhile] at hB
    obtain ⟨a, at_, hAc⟩ : ∃ a at_, s.data.dropWhile jsWs = a :: at_ := by
      cases hA2 : s.data.dropWhile jsWs with
      | nil => exact absurd hA2 hA
      | cons x xs => exact ⟨x, xs, rfl⟩
    have hfa : jsWs a = false := dropWhile_head_false jsWs s.data a at_ hAc
    have hfb : jsWs b = false := dropWhile_head_false jsWs (s.data.dropWhile jsWs).reverse b bt hB
    have h1 : (b :: bt).reverse.head? = (b :: bt).getLast? := List.head?_reverse (b :: bt)
    have h2 : (b :: bt).getLast? = (s.data.dropWhile jsWs).reverse.getLast? := by
      rw [← hB]
      exact getLast?_dropWhile jsWs _ (by rw [hB]; simp)
    have h3 : (s.data.dropWhile jsWs).reverse.getLast? = (s.data.dropWhile jsWs).head? :=
      List.getLast?_reverse _
    have h4 : (b :: bt).reverse.head? = some a := by
      rw [h1, h2, h3, hAc]; rfl
    have h5 : (b :: bt).reverse.getLast? = some b := by
      rw [List.getLast?_reverse]; rfl
    rw [h4, h5]
    simp [hfa, hfb]

theorem jsTrim_eq_self (s : String) (h : isTrimmed s = true) : jsTrim s = s := by
  unfold isTrimmed noEdgeWs at h
  rw [Bool.and_eq_true] at h
  have hhead : ∀ a ∈ s.data.head?, jsWs a = false := by
    intro a ha
    have := h.1
    rw [ha] at this
    simpa using this
  have hlast : ∀ a ∈ s.data.getLast?, jsWs a = false := by
    intro a ha
    have := h.2
    rw [ha] at this
    simpa using this
  have e1 : s.data.dropWhile jsWs = s.data := dropWhile_eq_self_of_head jsWs s.data hhead
  have e2 : s.data.reverse.dropWhile jsWs = s.data.reverse := by
    apply dropWhile_eq_self_of_head
    intro a ha
    rw [List.head?_reverse] at ha
    exact hlast a ha
  show (⟨((s.data.dropWhile jsWs).reverse.dropWhile jsWs).reverse⟩ : String) = s
  rw [e1, e2, List.reverse_reverse]

theorem jsTrim_empty : jsTrim "" = "" := rfl

theorem normalized_toStored_jsTrim (x d : String) (h : toStored (jsTrim x) = some d) :
    isTrimmed d = true ∧ d ≠ "" := by
  unfold toStored at h
  by_cases hx : jsTrim x = ""
  · rw [if_pos hx] at h; cases h
  · rw [if_neg hx] at h
    cases h
    exact ⟨isTrimmed_jsTrim x, hx⟩

theorem normalizedRow_spec (r : BookmarkRecord) (d : String)
    (h : normalizedRow r = true) (hc : r.category = some d) :
    isTrimmed d = true ∧ d ≠ "" := by
  unfold normalizedRow at h
  rw [hc] at h
  rw [Bool.and_eq_true] at h
  refine ⟨h.1, ?_⟩
  have := h.2
  simpa using this

theorem normalizedRow_of_category_eq (r r' : BookmarkRecord)
    (h : r'.category = r.category) : normalizedRow r' = normalizedRow r := by
  unfold normalizedRow
  rw [h]

theorem normalizedRow_of_toStored_jsTrim (r : BookmarkRecord) (x : String)
    (h : r.category = toStored (jsTrim x)) : normalizedRow r = true := by
  unfold normalizedRow
  rw [h]
  unfold toStored
  by_cases hx : jsTrim x = ""
  · rw [if_pos hx]
  · rw [if_neg hx]
    simp [isTrimmed_jsTrim x, hx]

theorem normalizedRow_of_orNull (r r' : BookmarkRecord)
    (h : normalizedRow r = true) (h2 : r'.category = orNullStr r.category) :
    normalizedRow r' = true := by
  unfold normalizedRow
  rw [h2]
  cases hc : r.category with
  | none => rfl
  | some d =>
    have hsp := normalizedRow_spec r d h hc
    by_cases hd : d = ""
    · simp [orNullStr, hd]
    · simp [orNullStr, hd, hsp.1]

theorem toStored_normalizeCategory_self (r : BookmarkRecord)
    (h : normalizedRow r = true) : toStored (normalizeCategory r.category) = r.category := by
  cases hc : r.category with
  | none =>
    show toStored (jsTrim ((none : Option String).getD "")) = none
    rfl
  | some d =>
    obtain ⟨ht, hd⟩ := normalizedRow_spec r d h hc
    show toStored (jsTrim ((some d).getD "")) = some d
    rw [Option.getD_some, jsTrim_eq_self d ht]
    unfold toStored
    rw [if_neg hd]

/-! ### Lemmas about `sqlMax` -/

theorem foldl_max_spec (rest : List Int) :
    ∀ o : Int, rest.foldl max o ∈ o :: rest ∧ ∀ x ∈ o :: rest, x ≤ rest.foldl max o := by
  induction rest with
  | nil => intro o; simp
  | cons r rs ih =>
    intro o
    rw [List.foldl_cons]
    obtain ⟨ihm, ihb⟩ := ih (max o r)
    constructor
    · rcases List.mem_cons.mp ihm with h | h
      · rw [h]
        rcases max_choice o r with hc | hc <;> rw [hc]
        · exact List.mem_cons_self _ _
        · exact List.mem_cons_of_mem _ (List.mem_cons_self _ _)
      · exact List.mem_cons_of_mem _ (List.mem_cons_of_mem _ h)
    · intro x hx
      rcases List.mem_cons.mp hx with h | h
      · subst h
        calc x ≤ max x r := le_max_left _ _
          _ ≤ rs.foldl max (max x r) := ihb _ (List.mem_cons_self _ _)
      · rcases List.mem_cons.mp h with h2 | h2
        · subst h2
          calc x ≤ max o x := le_max_right _ _
            _ ≤ rs.foldl max (max o x) := ihb _ (List.mem_cons_self _ _)
        · exact ihb x (List.mem_cons_of_mem _ h2)

theorem sqlMax_spec (l : List Int) (h : l ≠ []) :
    sqlMax l ∈ l ∧ ∀ x ∈ l, x ≤ sqlMax l := by
  cases l with
  | nil => exact absurd rfl h
  | cons o rest => exact foldl_max_spec rest o

theorem sqlMax_range (l : List Int) (n : ℕ)
    (h : (↑l : Multiset Int) = Multiset.map (fun i : ℕ => (i : Int)) (Multiset.range n)) :
    sqlMax l = (n : Int) - 1 := by
  cases n with
  | zero =>
    have : l = [] := by
      have h0 : (↑l : Multiset Int) = 0 := by simpa using h
      exact (Multiset.coe_eq_zero l).mp h0
    rw [this]
    rfl
  | succ m =>
    have hne : l ≠ [] := by
      intro he
      rw [he] at h
      have := congrArg Multiset.card h
      simp at this
    obtain ⟨hmem, hub⟩ := sqlMax_spec l hne
    have h1 : sqlMax l ∈ (↑l : Multiset Int) := Multiset.mem_coe.mpr hmem
    rw [h] at h1
    rw [Multiset.mem_map] at h1
    obtain ⟨j, hj, hje⟩ := h1
    rw [Multiset.mem_range] at hj
    have h2 : ((m : ℕ) : Int) ∈ (↑l : Multiset Int) := by
      rw [h]
      exact Multiset.mem_map_of_mem _ (Multiset.mem_range.mpr (Nat.lt_succ_self m))
    have h3 : ((m : ℕ) : Int) ≤ sqlMax l := hub _ (Multiset.mem_coe.mp h2)
    omega

/-! ### The range-multiset bookkeeping for the contiguity invariant -/

theorem range_form (M : Multiset Int) (n : ℕ)
    (h : M = Multiset.map (fun i : ℕ => (i : Int)) (Multiset.range n)) :
    M = Multiset.map (fun i : ℕ => (i : Int)) (Multiset.range (Multiset.card M)) := by
  rw [h, Multiset.card_map, Multiset.card_range]

theorem range_erase_shift (n k : ℕ) (hk : k < n) :
    Multiset.map (fun x => if (k : Int) < x then x - 1 else x)
      ((Multiset.map (fun i : ℕ => (i : Int)) (Multiset.range n)).erase ((k : ℕ) : Int)) =
      Multiset.map (fun i : ℕ => (i : Int)) (Multiset.range (n - 1)) := by
  induction n with
  | zero => omega
  | succ m ih =>
    rw [Multiset.range_succ, Multiset.map_cons]
    by_cases hkm : k = m
    · subst hkm
      rw [Multiset.erase_cons_head]
      rw [Multiset.map_map]
      simp only [Nat.add_sub_cancel]
      apply Multiset.map_congr rfl
      intro i hi
      rw [Multiset.mem_range] at hi
      show (if (k : Int) < (i : Int) then (i : Int) - 1 else (i : Int)) = (i : Int)
      rw [if_neg (by omega)]
    · have hne : ((m : ℕ) : Int) ≠ ((k : ℕ) : Int) := by omega
      rw [Multiset.erase_cons_tail _ hne, Multiset.map_cons]
      have hkm2 : k < m := by omega
      rw [ih hkm2]
      have hm1 : ((m : ℕ) : Int) - 1 = (((m - 1 : ℕ)) : Int) := by omega
      have hfm : (if (k : Int) < (m : Int) then (m : Int) - 1 else (m : Int)) = ((m - 1 : ℕ) : Int) := by
        rw [if_pos (by omega)]
        omega
      rw [hfm]
      have hrange : Multiset.range (m + 1 - 1) = (m - 1) ::ₘ Multiset.range (m - 1) := by
        have : m + 1 - 1 = (m - 1) + 1 := by omega
        rw [this, Multiset.range_succ]
      rw [hrange, Multiset.map_cons]

/-! ### Category filters and table-level manipulation lemmas -/

theorem sqlEqCat_some_iff (x : Option String) (c : String) :
    sqlEqCat x (some c) = true ↔ x = some c := by
  cases x with
  | none => simp [sqlEqCat]
  | some d => simp [sqlEqCat]

theorem sqlEqCat_none (x : Option String) : sqlEqCat x none = false := by
  cases x <;> rfl

theorem sqlEqCat_some_param (c : String) (param : Option String)
    (h : sqlEqCat (some c) param = true) : param = some c := by
  cases param with
  | none => simp [sqlEqCat] at h
  | some p =>
    have : c = p := by simpa [sqlEqCat] using h
    rw [this]

theorem sqlEqCat_some_decide (x : Option String) (c : String) :
    sqlEqCat x (some c) = decide (x = some c) := by
  by_cases h : x = some c
  · rw [decide_eq_true h, (sqlEqCat_some_iff x c).mpr h]
  · have h2 : ¬ (sqlEqCat x (some c) = true) := fun hh => h ((sqlEqCat_some_iff x c).mp hh)
    rw [Bool.not_eq_true] at h2
    rw [h2, decide_eq_false h]

theorem recordsIn_nil (c : String) : recordsIn c [] = 0 := rfl

theorem recordsIn_cons (c : String) (a : BookmarkRecord) (t : List BookmarkRecord) :
    recordsIn c (a :: t) =
      (if a.category = some c then a ::ₘ recordsIn c t else recordsIn c t) := by
  unfold recordsIn
  rw [← Multiset.cons_coe, Multiset.filter_cons]
  by_cases h : a.category = some c
  · rw [if_pos h, if_pos h, Multiset.singleton_add]
  · rw [if_neg h, if_neg h, zero_add]

theorem ordersIn_nil (c : String) : ordersIn c [] = 0 := rfl

theorem ordersIn_cons (c : String) (a : BookmarkRecord) (t : List BookmarkRecord) :
    ordersIn c (a :: t) =
      (if a.category = some c then a.order ::ₘ ordersIn c t else ordersIn c t) := by
  unfold ordersIn
  rw [recordsIn_cons]
  by_cases h : a.category = some c
  · rw [if_pos h, if_pos h, Multiset.map_cons]
  · rw [if_neg h, if_neg h]

theorem ordersIn_shiftDown_some (c : String) (thr : Int) :
    ∀ s, ordersIn c (shiftDown (some c) thr s) =
      Multiset.map (fun x => if thr < x then x - 1 else x) (ordersIn c s) := by
  intro s
  induction s with
  | nil => rfl
  | cons a t ih =>
    by_cases h : a.category = some c
    · have hsq : sqlEqCat a.category (some c) = true := (sqlEqCat_some_iff _ _).mpr h
      by_cases ho : thr < a.order
      · have e : shiftDown (some c) thr (a :: t) =
            { a with order := a.order - 1 } :: shiftDown (some c) thr t := by
          simp [shiftDown, hsq, ho]
        rw [e, ordersIn_cons, if_pos h, ordersIn_cons, if_pos h, Multiset.map_cons, ih,
          if_pos ho]
      · have e : shiftDown (some c) thr (a :: t) = a :: shiftDown (some c) thr t := by
          simp [shiftDown, hsq, ho]
        rw [e, ordersIn_cons, if_pos h, ordersIn_cons, if_pos h, Multiset.map_cons, ih,
          if_neg ho]
    · have hsq : sqlEqCat a.category (some c) = false := by
        have h2 : ¬ (sqlEqCat a.category (some c) = true) :=
          fun hh => h ((sqlEqCat_some_iff _ _).mp hh)
        rwa [Bool.not_eq_true] at h2
      have e : shiftDown (some c) thr (a :: t) = a :: shiftDown (some c) thr t := by
        simp [shiftDown, hsq]
      rw [e, ordersIn_cons, if_neg h, ordersIn_cons, if_neg h, ih]

theorem ordersIn_shiftDown_other (c : String) (param : Option String) (thr : Int)
    (hp : param ≠ some c) :
    ∀ s, ordersIn c (shiftDown param thr s) = ordersIn c s := by
  intro s
  induction s with
  | nil => rfl
  | cons a t ih =>
    by_cases hcond : (sqlEqCat a.category param && decide (thr < a.order)) = true
    · have hanc : a.category ≠ some c := by
        intro hac
        rw [Bool.and_eq_true] at hcond
        have := sqlEqCat_some_param c param (hac ▸ hcond.1)
        exact hp this
      have e : shiftDown param thr (a :: t) =
          { a with order := a.order - 1 } :: shiftDown param thr t := by
        simp only [shiftDown, List.map_cons, hcond, if_true]
      rw [e, ordersIn_cons, if_neg hanc, ordersIn_cons, if_neg hanc, ih]
    · have e : shiftDown param thr (a :: t) = a :: shiftDown param thr t := by
        simp only [shiftDown, List.map_cons]
        rw [if_neg (by simpa using hcond)]
      rw [e, ordersIn_cons, ordersIn_cons, ih]

theorem ordersIn_append (c : String) (s : List BookmarkRecord) (a : BookmarkRecord) :
    ordersIn c (s ++ [a]) =
      (if a.category = some c then a.order ::ₘ ordersIn c s else ordersIn c s) := by
  induction s with
  | nil => rw [List.nil_append, ordersIn_cons, ordersIn_nil]
  | cons b t ih =>
    rw [List.cons_append, ordersIn_cons, ih, ordersIn_cons]
    by_cases ha : a.category = some c <;> by_cases hb : b.category = some c <;>
      simp [ha, hb, Multiset.cons_swap]

theorem filter_erase_mem {α : Type} [DecidableEq α] (p : α → Prop) [DecidablePred p]
    (m : Multiset α) (a : α) (ha : a ∈ m) :
    Multiset.filter p (m.erase a) =
      if p a then (Multiset.filter p m).erase a else Multiset.filter p m := by
  have key : Multiset.filter p m = (if p a then ({a} : Multiset α) else 0) +
      Multiset.filter p (m.erase a) := by
    conv_lhs => rw [← Multiset.cons_erase ha]
    rw [Multiset.filter_cons]
  by_cases hp : p a
  · rw [if_pos hp, key, if_pos hp, Multiset.singleton_add, Multiset.erase_cons_head]
  · rw [if_neg hp, key, if_neg hp, zero_add]

theorem mem_idsOf (r : BookmarkRecord) (s : List BookmarkRecord) (h : r ∈ s) :
    r.id ∈ idsOf s := List.mem_map_of_mem _ h

theorem wfIds_cons (a : BookmarkRecord) (t : List BookmarkRecord) :
    wfIds (a :: t) ↔ a.id ∉ idsOf t ∧ wfIds t := by
  unfold wfIds idsOf
  rw [List.map_cons, List.nodup_cons]

theorem replace_nonmem (bid : String) (newRow : BookmarkRecord) :
    ∀ (t : List BookmarkRecord), bid ∉ idsOf t →
      t.map (fun r => if r.id == bid then newRow else r) = t := by
  intro t
  induction t with
  | nil => intro _; rfl
  | cons a t ih =>
    intro h
    have h1 : ¬ (bid = a.id ∨ bid ∈ idsOf t) := by
      intro hc
      apply h
      unfold idsOf
      rw [List.map_cons, List.mem_cons]
      exact hc
    push_neg at h1
    rw [List.map_cons, if_neg (by simp [Ne.symm h1.1]), ih h1.2]

theorem filter_nonmem (bid : String) :
    ∀ (t : List BookmarkRecord), bid ∉ idsOf t →
      t.filter (fun r => !(r.id == bid)) = t := by
  intro t h
  apply List.filter_eq_self.mpr
  intro r hr
  have : r.id ≠ bid := by
    intro he
    exact h (he ▸ mem_idsOf r t hr)
  simp [this]

theorem coe_replaceById (bid : String) (newRow : BookmarkRecord) :
    ∀ (s : List BookmarkRecord) (cur : BookmarkRecord), wfIds s → cur ∈ s → cur.id = bid →
      (↑(s.map (fun r => if r.id == bid then newRow else r)) : Multiset BookmarkRecord) =
        newRow ::ₘ ((↑s : Multiset BookmarkRecord).erase cur) := by
  intro s
  induction s with
  | nil => intro cur _ hmem _; simp at hmem
  | cons a t ih =>
    intro cur hwf hmem hid
    obtain ⟨ha, ht⟩ := (wfIds_cons a t).mp hwf
    by_cases hab : a.id = bid
    · have hcur : cur = a := by
        rcases List.mem_cons.mp hmem with h | h
        · exact h
        · exfalso
          have hmm : cur.id ∈ idsOf t := mem_idsOf cur t h
          rw [hid, ← hab] at hmm
          exact ha hmm
      subst hcur
      rw [List.map_cons, if_pos (by simp [hab]),
        replace_nonmem bid newRow t (by rw [← hab]; exact ha)]
      rw [← Multiset.cons_coe, ← Multiset.cons_coe, Multiset.erase_cons_head]
    · have hga : (if (a.id == bid) = true then newRow else a) = a :=
        if_neg (by simp [hab])
      have hcura : cur ≠ a := by
        intro he
        apply hab
        rw [← hid, he]
      have hct : cur ∈ t := by
        rcases List.mem_cons.mp hmem with h | h
        · exact absurd h hcura
        · exact h
      rw [List.map_cons, hga, ← Multiset.cons_coe, ← Multiset.cons_coe,
        Multiset.erase_cons_tail _ (Ne.symm hcura), ih cur ht hct hid,
        Multiset.cons_swap]

theorem coe_removeById (bid : String) :
    ∀ (s : List BookmarkRecord) (cur : BookmarkRecord), wfIds s → cur ∈ s → cur.id = bid →
      (↑(s.filter (fun r => !(r.id == bid))) : Multiset BookmarkRecord) =
        (↑s : Multiset BookmarkRecord).erase cur := by
  intro s
  induction s with
  | nil => intro cur _ hmem _; simp at hmem
  | cons a t ih =>
    intro cur hwf hmem hid
    obtain ⟨ha, ht⟩ := (wfIds_cons a t).mp hwf
    by_cases hab : a.id = bid
    · have hcur : cur = a := by
        rcases List.mem_cons.mp hmem with h | h
        · exact h
        · exfalso
          have hmm : cur.id ∈ idsOf t := mem_idsOf cur t h
          rw [hid, ← hab] at hmm
          exact ha hmm
      subst hcur
      rw [List.filter_cons, if_neg (by simp [hab]),
        filter_nonmem bid t (by rw [← hab]; exact ha)]
      rw [← Multiset.cons_coe, Multiset.erase_cons_head]
    · have hcura : cur ≠ a := by
        intro he
        apply hab
        rw [← hid, he]
      have hct : cur ∈ t := by
        rcases List.mem_cons.mp hmem with h | h
        · exact absurd h hcura
        · exact h
      rw [List.filter_cons, if_pos (by simp [hab]), ← Multiset.cons_coe,
        ← Multiset.cons_coe, Multiset.erase_cons_tail _ (Ne.symm hcura),
        ih cur ht hct hid]

theorem idsOf_map_pres (g : BookmarkRecord → BookmarkRecord)
    (h : ∀ r, (g r).id = r.id) (s : List BookmarkRecord) :
    idsOf (s.map g) = idsOf s := by
  unfold idsOf
  rw [List.map_map]
  exact List.map_congr_left (fun r _ => h r)

theorem idsOf_shiftDown (param : Option String) (thr : Int) (s : List BookmarkRecord) :
    idsOf (shiftDown param thr s) = idsOf s := by
  apply idsOf_map_pres
  intro r
  by_cases h : (sqlEqCat r.category param && decide (thr < r.order)) = true <;> simp [h]

theorem shiftDown_category (param : Option String) (thr : Int) (r : BookmarkRecord) :
    ((if sqlEqCat r.category param && decide (thr < r.order) then
        { r with order := r.order - 1 } else r) : BookmarkRecord).category = r.category := by
  by_cases h : (sqlEqCat r.category param && decide (thr < r.order)) = true <;> simp [h]

theorem mem_shiftDown_self (param : Option String) (cur : BookmarkRecord)
    (s : List BookmarkRecord) (hm : cur ∈ s) : cur ∈ shiftDown param cur.order s := by
  have hmm := List.mem_map_of_mem
    (fun r => if sqlEqCat r.category param && decide (cur.order < r.order) then
      { r with order := r.order - 1 } else r) hm
  simpa [shiftDown] using hmm

theorem maxOrderIn_coe (c : String) (s : List BookmarkRecord) :
    (↑((s.filter (fun r => sqlEqCat r.category (some c))).map (fun r => r.order)) :
      Multiset Int) = ordersIn c s := by
  unfold ordersIn recordsIn
  rw [← Multiset.map_coe]
  rw [List.filter_congr (fun r _ => sqlEqCat_some_decide r.category c)]
  rw [← Multiset.filter_coe]

theorem maxOrderIn_inv (c : String) (s : List BookmarkRecord) (hinv : catInvariant c s) :
    maxOrderIn s (some c) = (Multiset.card (ordersIn c s) : Int) - 1 := by
  unfold maxOrderIn
  apply sqlMax_range
  rw [maxOrderIn_coe]
  exact hinv

/-! ### Per-operation preservation of the contiguity invariant -/

theorem ordersIn_def (c : String) (s : List BookmarkRecord) :
    ordersIn c s = Multiset.map (fun r => r.order) (recordsIn c s) := rfl

theorem catInvariant_congr (c : String) (s s' : List BookmarkRecord)
    (h : ordersIn c s' = ordersIn c s) (hinv : catInvariant c s) : catInvariant c s' := by
  unfold catInvariant
  rw [h]
  exact hinv

theorem toStored_eq_some (x d : String) (h : toStored x = some d) : x = d := by
  unfold toStored at h
  by_cases hx : x = ""
  · rw [if_pos hx] at h; cases h
  · rw [if_neg hx] at h; cases h; rfl

theorem toStored_of_ne (c : String) (hc : c ≠ "") : toStored c = some c := if_neg hc

theorem recordsIn_removeById (c bid : String) (s1 : List BookmarkRecord)
    (cur : BookmarkRecord) (hwf1 : wfIds s1) (hmem1 : cur ∈ s1) (hid : cur.id = bid) :
    recordsIn c (s1.filter (fun r => !(r.id == bid))) =
      if cur.category = some c then (recordsIn c s1).erase cur else recordsIn c s1 := by
  unfold recordsIn
  rw [coe_removeById bid s1 cur hwf1 hmem1 hid]
  exact filter_erase_mem _ _ _ (Multiset.mem_coe.mpr hmem1)

theorem recordsIn_replaceById (c bid : String) (newRow : BookmarkRecord)
    (s1 : List BookmarkRecord) (cur : BookmarkRecord) (hwf1 : wfIds s1)
    (hmem1 : cur ∈ s1) (hid : cur.id = bid) :
    recordsIn c (s1.map (fun r => if r.id == bid then newRow else r)) =
      (if newRow.category = some c
        then newRow ::ₘ
          (if cur.category = some c then (recordsIn c s1).erase cur else recordsIn c s1)
        else
          (if cur.category = some c then (recordsIn c s1).erase cur else recordsIn c s1)) := by
  unfold recordsIn
  rw [coe_replaceById bid newRow s1 cur hwf1 hmem1 hid, Multiset.filter_cons,
    filter_erase_mem _ _ _ (Multiset.mem_coe.mpr hmem1)]
  by_cases hn : newRow.category = some c
  · rw [if_pos hn, if_pos hn, Multiset.singleton_add]
  · rw [if_neg hn, if_neg hn, zero_add]

theorem orders_remove_shifted (c : String) (cur : BookmarkRecord)
    (s : List BookmarkRecord) (hcat : cur.category = some c) (hmem : cur ∈ s)
    (hinv : catInvariant c s) :
    Multiset.map (fun r => r.order)
      ((recordsIn c (shiftDown (some c) cur.order s)).erase cur) =
      Multiset.map (fun i : ℕ => (i : Int))
        (Multiset.range (Multiset.card (ordersIn c s) - 1)) := by
  have hmem1 : cur ∈ shiftDown (some c) cur.order s := mem_shiftDown_self _ _ _ hmem
  have hmemR1 : cur ∈ recordsIn c (shiftDown (some c) cur.order s) :=
    Multiset.mem_filter.mpr ⟨Multiset.mem_coe.mpr hmem1, hcat⟩
  have hmemR : cur ∈ recordsIn c s :=
    Multiset.mem_filter.mpr ⟨Multiset.mem_coe.mpr hmem, hcat⟩
  have hordM : cur.order ∈ ordersIn c s := by
    rw [ordersIn_def]
    exact Multiset.mem_map_of_mem _ hmemR
  obtain ⟨k, hkr, hke⟩ : ∃ k, k ∈ Multiset.range (Multiset.card (ordersIn c s)) ∧
      ((k : ℕ) : Int) = cur.order := by
    have := hordM
    rw [hinv] at this
    rw [Multiset.mem_map] at this
    obtain ⟨k, hk1, hk2⟩ := this
    exact ⟨k, hk1, hk2⟩
  rw [Multiset.mem_range] at hkr
  have h5 : Multiset.map (fun r => r.order) (recordsIn c (shiftDown (some c) cur.order s)) =
      cur.order ::ₘ Multiset.map (fun r => r.order)
        ((recordsIn c (shiftDown (some c) cur.order s)).erase cur) := by
    conv_lhs => rw [← Multiset.cons_erase hmemR1]
    rw [Multiset.map_cons]
  have h1 : ordersIn c (shiftDown (some c) cur.order s) =
      Multiset.map (fun x => if cur.order < x then x - 1 else x) (ordersIn c s) :=
    ordersIn_shiftDown_some c cur.order s
  have h7 : Multiset.map (fun x => if cur.order < x then x - 1 else x) (ordersIn c s) =
      cur.order ::ₘ Multiset.map (fun x => if cur.order < x then x - 1 else x)
        ((ordersIn c s).erase cur.order) := by
    conv_lhs => rw [← Multiset.cons_erase hordM]
    rw [Multiset.map_cons, if_neg (lt_irrefl cur.order)]
  have h8 : cur.order ::ₘ Multiset.map (fun r => r.order)
      ((recordsIn c (shiftDown (some c) cur.order s)).erase cur) =
      cur.order ::ₘ Multiset.map (fun x => if cur.order < x then x - 1 else x)
        ((ordersIn c s).erase cur.order) := by
    rw [← h5, ← h7]
    rw [← ordersIn_def] at h5 ⊢
    exact h1
  have h9 := (Multiset.cons_inj_right cur.order).mp h8
  rw [h9]
  have h10 : (ordersIn c s).erase cur.order =
      (Multiset.map (fun i : ℕ => (i : Int))
        (Multiset.range (Multiset.card (ordersIn c s)))).erase ((k : ℕ) : Int) := by
    rw [hke]
    conv_lhs => rw [hinv]
  rw [h10]
  have h11 : (fun x => if cur.order < x then x - 1 else x) =
      (fun x => if ((k : ℕ) : Int) < x then x - 1 else x) := by
    rw [hke]
  rw [h11]
  exact range_erase_shift (Multiset.card (ordersIn c s)) k hkr

theorem catInvariant_append (c : String) (s : List BookmarkRecord) (a : BookmarkRecord)
    (hinv : catInvariant c s)
    (h : a.category = some c → a.order = maxOrderIn s (some c) + 1) :
    catInvariant c (s ++ [a]) := by
  by_cases hc2 : a.category = some c
  · have horder := h hc2
    have hmax := maxOrderIn_inv c s hinv
    apply range_form _ (Multiset.card (ordersIn c s) + 1)
    rw [ordersIn_append, if_pos hc2, Multiset.range_succ, Multiset.map_cons]
    have ha : a.order = ((Multiset.card (ordersIn c s) : ℕ) : Int) := by omega
    rw [ha]
    exact (Multiset.cons_inj_right _).mpr hinv
  · unfold catInvariant
    rw [ordersIn_append, if_neg hc2]
    exact hinv

theorem catInvariant_create (c : String) (d : CreateData) (fid : String)
    (s : List BookmarkRecord) (hinv : catInvariant c s) :
    catInvariant c (createBookmark d fid s).2 := by
  apply catInvariant_append c s _ hinv
  intro hc2
  have hts : toStored (normalizeCategory d.category) = some c := hc2
  show maxOrderIn s (toStored (normalizeCategory d.category)) + 1 = maxOrderIn s (some c) + 1
  rw [hts]

theorem wfIds_updateMid (patch : UpdatePatch) (cur : BookmarkRecord)
    (s : List BookmarkRecord) (hwf : wfIds s) : wfIds (updateMid patch cur s) := by
  unfold updateMid
  by_cases hchg : normalizeCategory (patch.category.getD none) = normalizeCategory cur.category
  · rw [if_pos hchg]; exact hwf
  · rw [if_neg hchg]
    unfold wfIds
    rw [idsOf_shiftDown]
    exact hwf

theorem mem_updateMid (patch : UpdatePatch) (cur : BookmarkRecord)
    (s : List BookmarkRecord) (hm : cur ∈ s) : cur ∈ updateMid patch cur s := by
  unfold updateMid
  by_cases hchg : normalizeCategory (patch.category.getD none) = normalizeCategory cur.category
  · rw [if_pos hchg]; exact hm
  · rw [if_neg hchg]
    exact mem_shiftDown_self _ _ _ hm

theorem catInvariant_updateState (c bid : String) (patch : UpdatePatch)
    (cur : BookmarkRecord) (s : List BookmarkRecord)
    (hc : c ≠ "") (hwf : wfState s) (hcm : cur ∈ s) (hcid : cur.id = bid)
    (hpc : patch.category.isSome = true) (hpo : patch.order = none)
    (hinv : catInvariant c s) :
    catInvariant c (updateState bid patch cur s) := by
  obtain ⟨pc, hpceq⟩ := Option.isSome_iff_exists.mp hpc
  have hnorm := hwf.2 cur hcm
  have hts : toStored (normalizeCategory cur.category) = cur.category :=
    toStored_normalizeCategory_self cur hnorm
  have hwfmid : wfIds (updateMid patch cur s) := wfIds_updateMid patch cur s hwf.1
  have hmemMid : cur ∈ updateMid patch cur s := mem_updateMid patch cur s hcm
  have hrec := recordsIn_replaceById c bid (updatedRow bid patch cur s)
    (updateMid patch cur s) cur hwfmid hmemMid hcid
  have hURcat : (updatedRow bid patch cur s).category =
      toStored (normalizeCategory (patch.category.getD none)) := by
    show (match patch.category with
      | some pc => toStored (normalizeCategory pc)
      | none => orNullStr cur.category) = _
    rw [hpceq]
    rfl
  by_cases hchg : normalizeCategory (patch.category.getD none) = normalizeCategory cur.category
  · -- category unchanged (after normalization): no shift, order kept
    have hmid : updateMid patch cur s = s := by unfold updateMid; rw [if_pos hchg]
    have hURcat2 : (updatedRow bid patch cur s).category = cur.category := by
      rw [hURcat, hchg, hts]
    have hURord : (updatedRow bid patch cur s).order = cur.order := by
      show updEffOrder patch cur s = cur.order
      unfold updEffOrder
      rw [if_pos hchg, hpo]
      rfl
    apply catInvariant_congr c s _ _ hinv
    rw [ordersIn_def]
    unfold updateState
    rw [hrec, hmid]
    by_cases hcc : cur.category = some c
    · have hcmemR : cur ∈ recordsIn c s :=
        Multiset.mem_filter.mpr ⟨Multiset.mem_coe.mpr hcm, hcc⟩
      rw [if_pos (hURcat2.trans hcc), if_pos hcc, Multiset.map_cons, hURord]
      conv_rhs => rw [ordersIn_def, ← Multiset.cons_erase hcmemR, Multiset.map_cons]
    · rw [if_neg (fun h => hcc (hURcat2 ▸ h)), if_neg hcc, ← ordersIn_def]
  · -- category changed: gap-closing shift in old category, append to new
    have hmid : updateMid patch cur s =
        shiftDown (toStored (normalizeCategory cur.category)) cur.order s := by
      unfold updateMid; rw [if_neg hchg]
    have hURord : (updatedRow bid patch cur s).order =
        maxOrderIn (updateMid patch cur s)
          (toStored (normalizeCategory (patch.category.getD none))) + 1 := by
      show updEffOrder patch cur s = _
      unfold updEffOrder
      rw [if_neg hchg]
    by_cases hcc : cur.category = some c
    · -- the row leaves category c
      have holdc : normalizeCategory cur.category = c := by
        apply toStored_eq_some
        rw [hts, hcc]
      have hmid2 : updateMid patch cur s = shiftDown (some c) cur.order s := by
        rw [hmid, holdc, toStored_of_ne c hc]
      have hURnotc : (updatedRow bid patch cur s).category ≠ some c := by
        rw [hURcat]
        intro h
        have := toStored_eq_some _ _ h
        rw [this, holdc] at hchg
        exact hchg rfl
      apply range_form _ (Multiset.card (ordersIn c s) - 1)
      rw [ordersIn_def]
      unfold updateState
      rw [hrec, if_neg hURnotc, if_pos hcc, hmid2]
      exact orders_remove_shifted c cur s hcc hcm hinv
    · -- the row was not in category c
      have hparam : toStored (normalizeCategory cur.category) ≠ some c := by
        rw [hts]; exact hcc
      have hshift : ordersIn c (updateMid patch cur s) = ordersIn c s := by
        rw [hmid]
        exact ordersIn_shiftDown_other c _ cur.order hparam s
      by_cases hnc : toStored (normalizeCategory (patch.category.getD none)) = some c
      · -- the row joins category c at the end
        have hinv1 : catInvariant c (updateMid patch cur s) :=
          catInvariant_congr c s _ hshift hinv
        have hmax := maxOrderIn_inv c (updateMid patch cur s) hinv1
        have hURordc : (updatedRow bid patch cur s).order =
            (Multiset.card (ordersIn c (updateMid patch cur s)) : Int) - 1 + 1 := by
          rw [hURord, hnc, hmax]
        apply range_form _ (Multiset.card (ordersIn c s) + 1)
        rw [ordersIn_def]
        unfold updateState
        rw [hrec, if_pos (hURcat.trans hnc), if_neg hcc,
          Multiset.map_cons, ← ordersIn_def, Multiset.range_succ, Multiset.map_cons]
        have hord2 : (updatedRow bid patch cur s).order =
            ((Multiset.card (ordersIn c s) : ℕ) : Int) := by
          rw [hURordc, hshift]
          omega
        rw [hord2]
        apply (Multiset.cons_inj_right _).mpr
        rw [hshift]
        exact hinv
      · -- the row ends up in neither the old nor category c
        have hURnotc : (updatedRow bid patch cur s).category ≠ some c := by
          rw [hURcat]; exact hnc
        apply catInvariant_congr c s _ _ hinv
        rw [ordersIn_def]
        unfold updateState
        rw [hrec, if_neg hURnotc, if_neg hcc, ← ordersIn_def]
        exact hshift

theorem catInvariant_deleteState (c bid : String) (deleted : BookmarkRecord)
    (s : List BookmarkRecord) (hc : c ≠ "") (hwf : wfState s) (hdm : deleted ∈ s)
    (hdid : deleted.id = bid) (hinv : catInvariant c s) :
    catInvariant c (deleteState bid deleted s) := by
  have hnorm := hwf.2 deleted hdm
  have hts : toStored (normalizeCategory deleted.category) = deleted.category :=
    toStored_normalizeCategory_self deleted hnorm
  have hmem1 : deleted ∈ shiftDown (toStored (normalizeCategory deleted.category))
      deleted.order s := mem_shiftDown_self _ _ _ hdm
  have hwf1 : wfIds (shiftDown (toStored (normalizeCategory deleted.category))
      deleted.order s) := by
    unfold wfIds
    rw [idsOf_shiftDown]
    exact hwf.1
  have hrec := recordsIn_removeById c bid
    (shiftDown (toStored (normalizeCategory deleted.category)) deleted.order s)
    deleted hwf1 hmem1 hdid
  by_cases hcc : deleted.category = some c
  · have holdc : normalizeCategory deleted.category = c := by
      apply toStored_eq_some
      rw [hts, hcc]
    have hmid2 : shiftDown (toStored (normalizeCategory deleted.category))
        deleted.order s = shiftDown (some c) deleted.order s := by
      rw [holdc, toStored_of_ne c hc]
    apply range_form _ (Multiset.card (ordersIn c s) - 1)
    unfold deleteState
    rw [ordersIn_def, hrec, if_pos hcc, hmid2]
    exact orders_remove_shifted c deleted s hcc hdm hinv
  · have hparam : toStored (normalizeCategory deleted.category) ≠ some c := by
      rw [hts]; exact hcc
    have hshift : ordersIn c (shiftDown (toStored (normalizeCategory deleted.category))
        deleted.order s) = ordersIn c s :=
      ordersIn_shiftDown_other c _ deleted.order hparam s
    apply catInvariant_congr c s _ _ hinv
    unfold deleteState
    rw [ordersIn_def, hrec, if_neg hcc, ← ordersIn_def]
    exact hshift

/-! ### Preservation of table well-formedness -/

theorem wfState_create (d : CreateData) (fid : String) (s : List BookmarkRecord)
    (h : wfState s) (hf : fid ∉ idsOf s) : wfState (createBookmark d fid s).2 := by
  constructor
  · show ((s ++ [createdRow d fid s]).map (fun r => r.id)).Nodup
    rw [List.map_append]
    rw [List.nodup_append]
    refine ⟨h.1, by simp, ?_⟩
    intro x hx hx2
    have : x = fid := by simpa using hx2
    rw [this] at hx
    exact hf hx
  · intro r hr
    rcases List.mem_append.mp hr with hr | hr
    · exact h.2 r hr
    · have : r = createdRow d fid s := by simpa using hr
      rw [this]
      exact normalizedRow_of_toStored_jsTrim _ (d.category.getD "") rfl

theorem normalizedRow_shiftDown (param : Option String) (thr : Int)
    (s : List BookmarkRecord) (h : ∀ r ∈ s, normalizedRow r = true) :
    ∀ r ∈ shiftDown param thr s, normalizedRow r = true := by
  intro r hr
  obtain ⟨r0, hr0, hre⟩ := List.mem_map.mp hr
  rw [← hre, normalizedRow_of_category_eq r0 _ (shiftDown_category param thr r0)]
  exact h r0 hr0

theorem normalizedRow_updatedRow (bid : String) (patch : UpdatePatch)
    (cur : BookmarkRecord) (s : List BookmarkRecord) (hcur : normalizedRow cur = true) :
    normalizedRow (updatedRow bid patch cur s) = true := by
  cases hpcc : patch.category with
  | some pc =>
    apply normalizedRow_of_toStored_jsTrim _ (pc.getD "")
    show (match patch.category with
      | some pc => toStored (normalizeCategory pc)
      | none => orNullStr cur.category) = _
    rw [hpcc]
    rfl
  | none =>
    apply normalizedRow_of_orNull cur
    · exact hcur
    · show (match patch.category with
        | some pc => toStored (normalizeCategory pc)
        | none => orNullStr cur.category) = _
      rw [hpcc]

theorem wfState_updateState (bid : String) (patch : UpdatePatch) (cur : BookmarkRecord)
    (s : List BookmarkRecord) (h : wfState s) (hcm : cur ∈ s) :
    wfState (updateState bid patch cur s) := by
  have hmidn : ∀ r ∈ updateMid patch cur s, normalizedRow r = true := by
    unfold updateMid
    by_cases hchg : normalizeCategory (patch.category.getD none) =
        normalizeCategory cur.category
    · rw [if_pos hchg]; exact h.2
    · rw [if_neg hchg]
      exact normalizedRow_shiftDown _ _ s h.2
  constructor
  · show (idsOf _).Nodup
    unfold updateState
    rw [idsOf_map_pres]
    · exact (wfIds_updateMid patch cur s h.1)
    · intro r
      by_cases hb : (r.id == bid) = true
      · rw [if_pos hb]
        show bid = r.id
        have : r.id = bid := by simpa using hb
        rw [this]
      · rw [if_neg hb]
  · intro r hr
    obtain ⟨r0, hr0, hre⟩ := List.mem_map.mp hr
    by_cases hb : (r0.id == bid) = true
    · rw [if_pos hb] at hre
      rw [← hre]
      exact normalizedRow_updatedRow bid patch cur s (h.2 cur hcm)
    · rw [if_neg hb] at hre
      rw [← hre]
      exact hmidn r0 hr0

theorem wfState_deleteState (bid : String) (deleted : BookmarkRecord)
    (s : List BookmarkRecord) (h : wfState s) : wfState (deleteState bid deleted s) := by
  constructor
  · show (idsOf _).Nodup
    have hsub : List.Sublist (idsOf (deleteState bid deleted s))
        (idsOf (shiftDown (toStored (normalizeCategory deleted.category))
          deleted.order s)) := by
      apply List.Sublist.map
      exact List.filter_sublist _
    apply List.Nodup.sublist hsub
    rw [idsOf_shiftDown]
    exact h.1
  · intro r hr
    have hr1 : r ∈ shiftDown (toStored (normalizeCategory deleted.category))
        deleted.order s := List.mem_of_mem_filter hr
    exact normalizedRow_shiftDown _ _ s h.2 r hr1

/-! ### The operation sequence -/

theorem wf_inv_applyOp (c : String) (op : BookmarkOp) (s : List BookmarkRecord)
    (hc : c ≠ "") (hwf : wfState s) (hop : validOp op s = true)
    (hinv : catInvariant c s) :
    wfState (applyOp op s) ∧ catInvariant c (applyOp op s) := by
  cases op with
  | create d fid =>
    have hf : fid ∉ idsOf s := by
      intro hmm
      have hcontains : (idsOf s).contains fid = true := List.elem_iff.mpr hmm
      rw [validOp, hcontains] at hop
      simp at hop
    exact ⟨wfState_create d fid s hwf hf, catInvariant_create c d fid s hinv⟩
  | update bid patch =>
    have hop2 : patch.category.isSome = true ∧ patch.order.isNone = true := by
      simpa [validOp, Bool.and_eq_true] using hop
    have hpo : patch.order = none := Option.isNone_iff_eq_none.mp hop2.2
    show wfState (updateBookmark bid patch s).2 ∧ catInvariant c (updateBookmark bid patch s).2
    cases hfind : s.find? (fun r => r.id == bid) with
    | none =>
      unfold updateBookmark
      rw [hfind]
      exact ⟨hwf, hinv⟩
    | some cur =>
      have hcm : cur ∈ s := List.mem_of_find?_eq_some hfind
      have hcid : cur.id = bid := by
        have := List.find?_some hfind
        simpa using this
      unfold updateBookmark
      rw [hfind]
      exact ⟨wfState_updateState bid patch cur s hwf hcm,
        catInvariant_updateState c bid patch cur s hc hwf hcm hcid hop2.1 hpo hinv⟩
  | delete bid =>
    show wfState (deleteBookmark bid s).2 ∧ catInvariant c (deleteBookmark bid s).2
    cases hfind : s.find? (fun r => r.id == bid) with
    | none =>
      unfold deleteBookmark
      rw [hfind]
      exact ⟨hwf, hinv⟩
    | some deleted =>
      have hdm : deleted ∈ s := List.mem_of_find?_eq_some hfind
      have hdid : deleted.id = bid := by
        have := List.find?_some hfind
        simpa using this
      unfold deleteBookmark
      rw [hfind]
      exact ⟨wfState_deleteState bid deleted s hwf,
        catInvariant_deleteState c bid deleted s hc hwf hdm hdid hinv⟩

theorem wf_inv_applyOps (c : String) :
    ∀ (ops : List BookmarkOp) (s : List BookmarkRecord), c ≠ "" → wfState s →
      validOps ops s = true → catInvariant c s →
      wfState (applyOps ops s) ∧ catInvariant c (applyOps ops s) := by
  intro ops
  induction ops with
  | nil => intro s _ hwf _ hinv; exact ⟨hwf, hinv⟩
  | cons op rest ih =>
    intro s hc hwf hval hinv
    have hv : validOp op s = true ∧ validOps rest (applyOp op s) = true := by
      simpa [validOps, Bool.and_eq_true] using hval
    obtain ⟨h1, h2⟩ := wf_inv_applyOp c op s hc hwf hv.1 hinv
    show wfState (applyOps rest (applyOp op s)) ∧ _
    exact ih (applyOp op s) hc h1 hv.2 h2

/-- C1 (counterexample): the claim fails as stated.  Starting from the empty
store — which satisfies the invariant for every category — two consecutive
`createBookmark` calls with no category leave two bookmarks of the same
(empty) category both with order 0, not orders 0 and 1: the `WHERE category =
NULL` comparison in the MAX query never matches, so the second create also
computes order `-1 + 1 = 0`. -/
theorem c1_counterexample :
    (applyOps [.create (plainCreate "x") "i1", .create (plainCreate "y") "i2"]
      []).map (fun r => (r.category, r.order)) =
      [(none, 0), (none, 0)] := by
  decide

/-- C1 (amended): for every nonempty category, after any sequence of
`createBookmark` (with an id fresh at creation time), `updateBookmark` whose
patch carries the category field and omits the order field, and
`deleteBookmark` operations, starting from a well-formed store (distinct ids,
stored categories nonempty and trimmed) satisfying the invariant, the order
values of the bookmarks stored under that category are exactly
0, 1, ..., n-1. -/
theorem c1_invariant_amended (c : String) (ops : List BookmarkOp)
    (s : List BookmarkRecord) (hc : c ≠ "") (hwf : wfState s)
    (hops : validOps ops s = true) (hinv : catInvariant c s) :
    catInvariant c (applyOps ops s) :=
  (wf_inv_applyOps c ops s hc hwf hops hinv).2

/-- Witness for the amended C1 theorem at a concrete store and operation
sequence (a create into w, a move of a out of w, a delete inside w). -/
theorem c1_invariant_amended_witness :
    (("w" : String) ≠ "" ∧ wfState demoS ∧ validOps demoOps demoS = true ∧
      catInvariant "w" demoS) ∧ catInvariant "w" (applyOps demoOps demoS) :=
  ⟨⟨by decide, by decide, by decide, by decide⟩,
    c1_invariant_amended "w" demoOps demoS (by decide) (by decide) (by decide)
      (by decide)⟩

/-- C2 (bug evaluation): with one uncategorized bookmark of order 0 already
stored, `createBookmark` with an absent category assigns order 0 — not
max + 1 = 1 — because categories are stored as NULL and the clause
`WHERE category = NULL` of the MAX query matches no rows; the store ends
with two order-0 rows. -/
theorem c2_create_null_category_bug :
    rowU0.category = none ∧ rowU0.order = 0 ∧
    normalizeCategory (plainCreate "t").category = "" ∧
    (createBookmark (plainCreate "t") "fresh" [rowU0]).1.order = 0 ∧
    (createBookmark (plainCreate "t") "fresh" [rowU0]).2.map (fun r => r.order) =
      [0, 0] := by
  decide

/-- C3 (bug evaluation): a patch that only sets the title on bookmark b
(category w, order 1) is treated as a category change, because
`normalizeCategory(undefined) = ''` differs from 'w'; the final row keeps
category w but its order is reset to 0 (max of the empty category via
`WHERE category = NULL` is -1), so the order of b changes from 1 to 0 even though
the patch omitted both category and order. -/
theorem c3_update_missing_category_bug :
    rowW1.category = some "w" ∧ rowW1.order = 1 ∧ titleOnlyPatch.category = none ∧
    titleOnlyPatch.order = none ∧
    ((updateBookmark "b" titleOnlyPatch [rowW0, rowW1]).2).map
      (fun r => (r.id, r.category, r.order)) =
      [("a", some "w", 0), ("b", some "w", 0)] := by
  decide

/-- C4 (bug evaluation): deleting the order-0 uncategorized bookmark leaves
the other uncategorized bookmark at order 1 (an order gap with no order-0
row), because the clause `WHERE category = NULL` of the gap-closing UPDATE matches no
rows. -/
theorem c4_delete_null_category_bug :
    rowU0.category = none ∧ rowU1.category = none ∧ rowU0.order = 0 ∧
    rowU1.order = 1 ∧
    ((deleteBookmark "u1" [rowU0, rowU1]).2).map (fun r => (r.id, r.order)) =
      [("u2", 1)] := by
  decide

/-- C9: when no stored bookmark has the requested id, `updateBookmark` and
`deleteBookmark` both return null and leave the store untouched. -/
theorem c9_missing_id_noop (bid : String) (patch : UpdatePatch)
    (s : List BookmarkRecord) (h : ∀ r ∈ s, r.id ≠ bid) :
    updateBookmark bid patch s = (none, s) ∧ deleteBookmark bid s = (none, s) := by
  have hfind : s.find? (fun r => r.id == bid) = none := by
    rw [List.find?_eq_none]
    intro r hr
    simp [h r hr]
  constructor
  · unfold updateBookmark
    rw [hfind]
  · unfold deleteBookmark
    rw [hfind]

/-- Witness for C9 at a concrete store and missing id. -/
theorem c9_missing_id_noop_witness :
    (idsOf demoS).contains "zzz" = false ∧
      (updateBookmark "zzz" titleOnlyPatch demoS = (none, demoS) ∧
        deleteBookmark "zzz" demoS = (none, demoS)) :=
  ⟨by decide, c9_missing_id_noop "zzz" titleOnlyPatch demoS (by decide)⟩

/-- C7: the GET bookmarks handler returns exactly the visible bookmarks of
the sorted listing when no valid bearer token is presented, and the full
sorted listing when one is. -/
theorem c7_visibility_filter (req : ApiRequest) (co : List String)
    (s : List BookmarkRecord) :
    (getAuthFromRequest req = none →
      ∀ r, r ∈ handleGetBookmarks req co s ↔
        r ∈ listBookmarks co s ∧ r.visible = true) ∧
    (∀ u, getAuthFromRequest req = some u →
      handleGetBookmarks req co s = listBookmarks co s) := by
  constructor
  · intro hnone r
    unfold handleGetBookmarks
    rw [hnone]
    exact List.mem_filter
  · intro u hsome
    unfold handleGetBookmarks
    rw [hsome]

/-- Witness for C7: a token-less request against a store holding one visible
and one hidden bookmark, instantiated at the visible bookmark. -/
theorem c7_visibility_filter_witness :
    getAuthFromRequest { bearer := none } = none ∧
      (rowU0 ∈ handleGetBookmarks { bearer := none } [] [rowU0, rowU1] ↔
        rowU0 ∈ listBookmarks [] [rowU0, rowU1] ∧ rowU0.visible = true) :=
  ⟨rfl, (c7_visibility_filter { bearer := none } [] [rowU0, rowU1]).1 rfl rowU0⟩

/-- C8 (counterexample): the claim says a theme outside the valid set makes
`updateSettings` fail, but the empty string is outside the set and the call
succeeds, storing it. -/
theorem c8_counterexample :
    validThemes.contains "" = false ∧
    updateSettings { theme := some "", siteTitle := none, siteIcon := none }
        { theme := none, siteTitle := none, siteIcon := none } =
      (Except.ok { theme := "", siteTitle := "个人书签", siteIcon := "🔖" },
        { theme := some "", siteTitle := none, siteIcon := none }) :=
  ⟨by decide, rfl⟩

theorem theme_guard_eq (p : SettingsPatch) :
    (p.theme.any (fun t => !(t == "") && !(validThemes.contains t))) = !(themeOk p) := by
  obtain ⟨pt, pti, pic⟩ := p
  cases pt with
  | none => rfl
  | some t =>
    show (!(t == "") && !(validThemes.contains t)) = !(t == "" || validThemes.contains t)
    rw [Bool.not_or]

theorem title_guard_eq (p : SettingsPatch) :
    (p.siteTitle.any (fun t => !(t == "") && decide (t.length > 60))) = !(titleOk p) := by
  obtain ⟨pt, pti, pic⟩ := p
  cases pti with
  | none => rfl
  | some t =>
    show (!(t == "") && decide (t.length > 60)) = !(decide (t.length ≤ 60))
    by_cases ht : t = ""
    · subst ht
      rfl
    · have h1 : (t == "") = false := by simp [ht]
      rw [h1]
      simp only [Bool.not_false, Bool.true_and]
      by_cases hl : t.length ≤ 60
      · rw [decide_eq_true hl]
        simp only [Bool.not_true]
        rw [decide_eq_false (by omega)]
      · rw [decide_eq_false hl]
        simp only [Bool.not_false]
        rw [decide_eq_true (by omega)]

theorem icon_guard_eq (p : SettingsPatch) :
    (p.siteIcon.any (fun t => !(t == "") && decide (t.length > 512))) = !(iconOk p) := by
  obtain ⟨pt, pti, pic⟩ := p
  cases pic with
  | none => rfl
  | some t =>
    show (!(t == "") && decide (t.length > 512)) = !(decide (t.length ≤ 512))
    by_cases ht : t = ""
    · subst ht
      rfl
    · have h1 : (t == "") = false := by simp [ht]
      rw [h1]
      simp only [Bool.not_false, Bool.true_and]
      by_cases hl : t.length ≤ 512
      · rw [decide_eq_true hl]
        simp only [Bool.not_true]
        rw [decide_eq_false (by omega)]
      · rw [decide_eq_false hl]
        simp only [Bool.not_false]
        rw [decide_eq_true (by omega)]

theorem settings_write_chain (p : SettingsPatch) (st : SettingsStore) :
    (if p.siteIcon.isSome then
      { (if p.siteTitle.isSome then
          { (if p.theme.isSome then { st with theme := p.theme } else st) with
            siteTitle := p.siteTitle }
        else (if p.theme.isSome then { st with theme := p.theme } else st)) with
        siteIcon := p.siteIcon }
      else
        (if p.siteTitle.isSome then
          { (if p.theme.isSome then { st with theme := p.theme } else st) with
            siteTitle := p.siteTitle }
        else (if p.theme.isSome then { st with theme := p.theme } else st))) =
      applySettingsPatch p st := by
  by_cases h1 : p.theme.isSome <;> by_cases h2 : p.siteTitle.isSome <;>
    by_cases h3 : p.siteIcon.isSome <;>
      simp [applySettingsPatch, h1, h2, h3]

/-- C8 (amended): `updateSettings` succeeds exactly when the patch carries no
nonempty invalid theme, no siteTitle longer than 60, and no siteIcon longer
than 512; on failure the stored settings are unchanged, and on success
exactly the provided fields are upserted. -/
theorem c8_update_settings_amended (p : SettingsPatch) (st : SettingsStore) :
    (updateSettings p st).1.isOk = (themeOk p && titleOk p && iconOk p) ∧
    (updateSettings p st).2 =
      (if themeOk p && titleOk p && iconOk p then applySettingsPatch p st else st) := by
  unfold updateSettings
  by_cases hb1 : (p.theme.any (fun t => !(t == "") && !(validThemes.contains t))) = true
  · have hth : themeOk p = false := by
      have := theme_guard_eq p
      rw [hb1] at this
      simpa using this.symm
    rw [if_pos hb1, hth]
    simp [Except.isOk, Except.toBool]
  · have hth : themeOk p = true := by
      have := theme_guard_eq p
      rw [Bool.not_eq_true] at hb1
      rw [hb1] at this
      simpa using this.symm
    rw [if_neg hb1]
    by_cases hb2 : (p.siteTitle.any (fun t => !(t == "") && decide (t.length > 60))) = true
    · have hti : titleOk p = false := by
        have := title_guard_eq p
        rw [hb2] at this
        simpa using this.symm
      rw [if_pos hb2, hth, hti]
      simp [Except.isOk, Except.toBool]
    · have hti : titleOk p = true := by
        have := title_guard_eq p
        rw [Bool.not_eq_true] at hb2
        rw [hb2] at this
        simpa using this.symm
      rw [if_neg hb2]
      by_cases hb3 : (p.siteIcon.any (fun t => !(t == "") && decide (t.length > 512))) = true
      · have hic : iconOk p = false := by
          have := icon_guard_eq p
          rw [hb3] at this
          simpa using this.symm
        rw [if_pos hb3, hth, hti, hic]
        simp [Except.isOk, Except.toBool]
      · have hic : iconOk p = true := by
          have := icon_guard_eq p
          rw [Bool.not_eq_true] at hb3
          rw [hb3] at this
          simpa using this.symm
        rw [if_neg hb3, hth, hti, hic]
        constructor
        · rfl
        · show (if p.siteIcon.isSome then _ else _) = _
          rw [settings_write_chain p st]
          rfl

/-- C10: validation in `updateSettings` fires only on truthy values: an
empty-string theme skips the validity check (it is falsy) yet is still
upserted (it is not undefined), so `updateSettings` with theme "" succeeds
and stores a theme outside the valid set; in general a theme-only patch
throws exactly when the theme is nonempty and invalid. -/
theorem c10_truthiness_validation :
    validThemes.contains "" = false ∧
    (∀ st : SettingsStore,
      updateSettings { theme := some "", siteTitle := none, siteIcon := none } st =
        (Except.ok (getSettings { st with theme := some "" }),
          { st with theme := some "" })) ∧
    (∀ st : SettingsStore, (getSettings { st with theme := some "" }).theme = "") ∧
    (∀ (t : String) (st : SettingsStore),
      (updateSettings { theme := some t, siteTitle := none, siteIcon := none } st).1.isOk =
        (t == "" || validThemes.contains t)) := by
  refine ⟨by decide, fun st => rfl, fun st => rfl, ?_⟩
  intro t st
  cases hb : (t == "") with
  | true =>
    have ht : t = "" := by simpa using hb
    subst ht
    rfl
  | false =>
    cases hc : validThemes.contains t with
    | true =>
      have hmem : t ∈ validThemes := by simpa using hc
      simp [updateSettings, Option.any, hb, hc, hmem, Except.isOk, Except.toBool]
    | false =>
      have hmem : t ∉ validThemes := by simpa using hc
      simp [updateSettings, Option.any, hb, hc, hmem, Except.isOk, Except.toBool]

/-! ### Lemmas about `reorderBookmarks` -/

theorem find?_cons_true (p : BookmarkRecord → Bool) (x : BookmarkRecord)
    (l : List BookmarkRecord) (h : p x = true) : List.find? p (x :: l) = some x :=
  List.find?_cons_of_pos l h

theorem find?_cons_false (p : BookmarkRecord → Bool) (x : BookmarkRecord)
    (l : List BookmarkRecord) (h : p x = false) :
    List.find? p (x :: l) = List.find? p l :=
  List.find?_cons_of_neg l (by simp [h])

theorem getRec_setOrder (b : String) (v : Int) :
    ∀ (s : List BookmarkRecord) (bid : String),
      getRec (setOrder b v s) bid =
        if bid = b then (getRec s bid).map (fun r => { r with order := v })
        else getRec s bid := by
  intro s
  induction s with
  | nil =>
    intro bid
    by_cases h : bid = b <;> simp [getRec, setOrder, h]
  | cons a t ih =>
    intro bid
    cases hab : (a.id == b) with
    | true =>
      have hab' : a.id = b := by simpa using hab
      have e1 : setOrder b v (a :: t) = { a with order := v } :: setOrder b v t := by
        simp [setOrder, hab']
      rw [e1]
      by_cases hbid : bid = b
      · have hpa : (({ a with order := v } : BookmarkRecord).id == bid) = true := by
          show (a.id == bid) = true
          rw [hbid, hab', beq_self_eq_true]
        have hpa2 : (a.id == bid) = true := by
          rw [hbid, hab', beq_self_eq_true]
        rw [getRec, find?_cons_true (fun r => r.id == bid) _ _ hpa, if_pos hbid, getRec,
          find?_cons_true (fun r => r.id == bid) _ _ hpa2]
        rfl
      · have hne : a.id ≠ bid := by
          rw [hab']
          exact fun h => hbid h.symm
        have hpa : (({ a with order := v } : BookmarkRecord).id == bid) = false := by
          show (a.id == bid) = false
          simp [hne]
        have hpa2 : (a.id == bid) = false := by simp [hne]
        rw [getRec, find?_cons_false (fun r => r.id == bid) _ _ hpa, if_neg hbid, getRec,
          find?_cons_false (fun r => r.id == bid) _ _ hpa2]
        have := ih bid
        rw [if_neg hbid] at this
        exact this
    | false =>
      have hab' : a.id ≠ b := by simpa using hab
      have e1 : setOrder b v (a :: t) = a :: setOrder b v t := by
        simp [setOrder, hab']
      rw [e1]
      cases hpa : (a.id == bid) with
      | true =>
        have hbid : bid ≠ b := by
          intro he
          have h1 : a.id = bid := by simpa using hpa
          rw [he] at h1
          rw [h1] at hab
          simp at hab
        rw [getRec, find?_cons_true (fun r => r.id == bid) _ _ hpa, if_neg hbid, getRec,
          find?_cons_true (fun r => r.id == bid) _ _ hpa]
      | false =>
        rw [getRec, find?_cons_false (fun r => r.id == bid) _ _ hpa]
        have hthis := ih bid
        by_cases hbid : bid = b
        · rw [if_pos hbid] at hthis
          rw [if_pos hbid]
          have e2 : getRec (a :: t) bid = getRec t bid := by
            rw [getRec, find?_cons_false (fun r => r.id == bid) _ _ hpa]
            rfl
          rw [e2]
          exact hthis
        · rw [if_neg hbid] at hthis
          rw [if_neg hbid]
          have e2 : getRec (a :: t) bid = getRec t bid := by
            rw [getRec, find?_cons_false (fun r => r.id == bid) _ _ hpa]
            rfl
          rw [e2]
          exact hthis

theorem getRec_applyOrderUpdates_nmem :
    ∀ (ps : List (ℕ × String)) (s : List BookmarkRecord) (bid : String),
      bid ∉ ps.map Prod.snd →
      getRec (applyOrderUpdates ps s) bid = getRec s bid := by
  intro ps
  induction ps with
  | nil => intro s bid _; rfl
  | cons p pt ih =>
    intro s bid h
    have h1 : bid ≠ p.2 ∧ bid ∉ pt.map Prod.snd := by
      rw [List.map_cons, List.mem_cons] at h
      push_neg at h
      exact h
    show getRec (applyOrderUpdates pt (setOrder p.2 (p.1 : Int) s)) bid = getRec s bid
    rw [ih _ bid h1.2, getRec_setOrder, if_neg h1.1]

theorem getRec_applyOrderUpdates_mem :
    ∀ (ps : List (ℕ × String)) (s : List BookmarkRecord) (n : ℕ) (bid : String),
      (ps.map Prod.snd).Nodup → (n, bid) ∈ ps →
      getRec (applyOrderUpdates ps s) bid =
        (getRec s bid).map (fun r => { r with order := (n : Int) }) := by
  intro ps
  induction ps with
  | nil => intro s n bid _ hm; simp at hm
  | cons p pt ih =>
    intro s n bid hnd hm
    have hnd1 : p.2 ∉ pt.map Prod.snd ∧ (pt.map Prod.snd).Nodup := by
      rw [List.map_cons, List.nodup_cons] at hnd
      exact hnd
    show getRec (applyOrderUpdates pt (setOrder p.2 (p.1 : Int) s)) bid = _
    rcases List.mem_cons.mp hm with he | hmt
    · have hps : p.2 = bid := by rw [← he]
      have hp1 : p.1 = n := by rw [← he]
      have hnm : bid ∉ pt.map Prod.snd := by rw [← hps]; exact hnd1.1
      rw [getRec_applyOrderUpdates_nmem pt _ bid hnm, getRec_setOrder,
        if_pos hps.symm, hp1]
    · have hbm : bid ∈ pt.map Prod.snd := by
        rw [List.mem_map]
        exact ⟨(n, bid), hmt, rfl⟩
      have hne : bid ≠ p.2 := by
        intro he2
        rw [← he2] at hnd1
        exact hnd1.1 hbm
      rw [ih _ n bid hnd1.2 hmt, getRec_setOrder, if_neg hne]

theorem idsOf_setOrder (b : String) (v : Int) (s : List BookmarkRecord) :
    idsOf (setOrder b v s) = idsOf s := by
  apply idsOf_map_pres
  intro r
  by_cases h : (r.id == b) = true <;> simp [h]

theorem idsOf_applyOrderUpdates :
    ∀ (ps : List (ℕ × String)) (s : List BookmarkRecord),
      idsOf (applyOrderUpdates ps s) = idsOf s := by
  intro ps
  induction ps with
  | nil => intro s; rfl
  | cons p pt ih =>
    intro s
    show idsOf (applyOrderUpdates pt (setOrder p.2 (p.1 : Int) s)) = idsOf s
    rw [ih, idsOf_setOrder]

theorem getRec_eq_some (s : List BookmarkRecord) (r : BookmarkRecord)
    (hwf : wfIds s) (hm : r ∈ s) : getRec s r.id = some r := by
  induction s with
  | nil => simp at hm
  | cons a t ih =>
    obtain ⟨ha, ht⟩ := (wfIds_cons a t).mp hwf
    rcases List.mem_cons.mp hm with he | hmt
    · rw [he, getRec, find?_cons_true (fun r => r.id == a.id) _ _ (beq_self_eq_true a.id)]
    · have hne : a.id ≠ r.id := by
        intro he2
        apply ha
        rw [he2]
        exact mem_idsOf r t hmt
      rw [getRec, find?_cons_false (fun x => x.id == r.id) a t (by simp [hne])]
      exact ih ht hmt

theorem getRec_id (s : List BookmarkRecord) (bid : String) (r : BookmarkRecord)
    (h : getRec s bid = some r) : r ∈ s ∧ r.id = bid := by
  refine ⟨List.mem_of_find?_eq_some h, ?_⟩
  have := List.find?_some h
  simpa using this

/-- C5: `reorderBookmarks` writes, for each listed id, its positional index
as its order; every stored id not mentioned in the sequence gets consecutive orders
continuing after the sequence length, following the stored (table) order of
those bookmarks; the set of stored ids is unchanged. -/
theorem c5_reorder_assigns_positions (seq : List String) (s : List BookmarkRecord)
    (hseq : seq.Nodup) (hwf : wfIds s) :
    idsOf (reorderBookmarks seq s) = idsOf s ∧
    (∀ r ∈ reorderBookmarks seq s, ∀ i, i < seq.length →
      (∀ (hi : i < seq.length), r.id = seq[i]) → r.order = (i : Int)) ∧
    (∀ r ∈ reorderBookmarks seq s, ∀ j,
      j < ((idsOf s).filter (fun bid => !(seq.contains bid))).length →
      (∀ (hj : j < ((idsOf s).filter (fun bid => !(seq.contains bid))).length),
        r.id = ((idsOf s).filter (fun bid => !(seq.contains bid)))[j]) →
      r.order = ((seq.length + j : ℕ) : Int)) := by
  have hids1 : (applyOrderUpdates seq.enum s).map (fun r => r.id) = idsOf s :=
    idsOf_applyOrderUpdates seq.enum s
  have hresult : reorderBookmarks seq s =
      applyOrderUpdates
        (((idsOf s).filter (fun bid => !(seq.contains bid))).enumFrom seq.length)
        (applyOrderUpdates seq.enum s) := by
    show applyOrderUpdates
        ((((applyOrderUpdates seq.enum s).map (fun r => r.id)).filter
          (fun bid => !(seq.contains bid))).enumFrom seq.length)
        (applyOrderUpdates seq.enum s) = _
    rw [hids1]
  rw [hresult]
  have hwfR : wfIds (applyOrderUpdates
      (((idsOf s).filter (fun bid => !(seq.contains bid))).enumFrom seq.length)
      (applyOrderUpdates seq.enum s)) := by
    show (idsOf _).Nodup
    rw [idsOf_applyOrderUpdates]
    show ((applyOrderUpdates seq.enum s).map (fun r => r.id)).Nodup
    rw [hids1]
    exact hwf
  refine ⟨?_, ?_, ?_⟩
  · show idsOf _ = idsOf s
    rw [idsOf_applyOrderUpdates]
    exact hids1
  · intro r hr i hilt hieq
    have hie := hieq hilt
    have hmem : r.id ∈ seq := by
      rw [hie]
      exact List.getElem_mem hilt
    have hcont : seq.contains r.id = true := List.elem_iff.mpr hmem
    have hnm2 : r.id ∉ ((((idsOf s).filter (fun bid => !(seq.contains bid))).enumFrom
        seq.length)).map Prod.snd := by
      rw [List.enumFrom_map_snd]
      intro hin
      have h2 := (List.mem_filter.mp hin).2
      rw [hcont] at h2
      simp at h2
    have hg : getRec (applyOrderUpdates
        (((idsOf s).filter (fun bid => !(seq.contains bid))).enumFrom seq.length)
        (applyOrderUpdates seq.enum s)) r.id = some r := getRec_eq_some _ r hwfR hr
    rw [getRec_applyOrderUpdates_nmem _ _ _ hnm2] at hg
    have hnd : (seq.enum.map Prod.snd).Nodup := by
      rw [List.enum_map_snd]
      exact hseq
    have hlen : i < seq.enum.length := by
      rw [List.enum_length]
      exact hilt
    have hpair : (i, r.id) ∈ seq.enum := by
      rw [hie, ← List.getElem_enum seq i hlen]
      exact List.getElem_mem hlen
    rw [getRec_applyOrderUpdates_mem seq.enum s i r.id hnd hpair] at hg
    cases hg0 : getRec s r.id with
    | none =>
      rw [hg0] at hg
      simp at hg
    | some r0 =>
      rw [hg0] at hg
      have hre : ({ r0 with order := (i : Int) } : BookmarkRecord) = r := by
        simpa using hg
      rw [← hre]
  · intro r hr j hjlt hjeq
    have hje := hjeq hjlt
    have hmemM : r.id ∈ (idsOf s).filter (fun bid => !(seq.contains bid)) := by
      rw [hje]
      exact List.getElem_mem hjlt
    have hnin : r.id ∉ seq := by
      have h2 := (List.mem_filter.mp hmemM).2
      intro hmm
      have hcon : seq.contains r.id = true := List.elem_iff.mpr hmm
      rw [hcon] at h2
      simp at h2
    have hg : getRec (applyOrderUpdates
        (((idsOf s).filter (fun bid => !(seq.contains bid))).enumFrom seq.length)
        (applyOrderUpdates seq.enum s)) r.id = some r := getRec_eq_some _ r hwfR hr
    have hndM : ((((idsOf s).filter (fun bid => !(seq.contains bid))).enumFrom
        seq.length).map Prod.snd).Nodup := by
      rw [List.enumFrom_map_snd]
      exact List.Nodup.filter _ hwf
    have hlenM : j < (((idsOf s).filter (fun bid => !(seq.contains bid))).enumFrom
        seq.length).length := by
      rw [List.enumFrom_length]
      exact hjlt
    have hpair : (seq.length + j, r.id) ∈
        ((idsOf s).filter (fun bid => !(seq.contains bid))).enumFrom seq.length := by
      rw [hje, ← List.getElem_enumFrom _ _ _ hlenM]
      exact List.getElem_mem hlenM
    rw [getRec_applyOrderUpdates_mem _ _ (seq.length + j) r.id hndM hpair] at hg
    have hnm1 : r.id ∉ seq.enum.map Prod.snd := by
      rw [List.enum_map_snd]
      exact hnin
    rw [getRec_applyOrderUpdates_nmem _ _ _ hnm1] at hg
    cases hg0 : getRec s r.id with
    | none =>
      rw [hg0] at hg
      simp at hg
    | some r0 =>
      rw [hg0] at hg
      have hre : ({ r0 with order := ((seq.length + j : ℕ) : Int) } : BookmarkRecord) = r := by
        simpa using hg
      rw [← hre]

/-- Witness for C5 at the concrete example given in the spec: reorder [b, a] over a
store holding a (order 0) then b (order 1) yields a.order = 1, b.order = 0. -/
theorem c5_reorder_witness :
    ((["b", "a"] : List String).Nodup ∧ wfIds demoS) ∧
    idsOf (reorderBookmarks ["b", "a"] demoS) = idsOf demoS ∧
    (reorderBookmarks ["b", "a"] demoS).map (fun r => (r.id, r.order)) =
      [("a", 1), ("b", 0)] :=
  ⟨⟨by decide, by decide⟩,
    (c5_reorder_assigns_positions ["b", "a"] demoS (by decide) (by decide)).1,
    by decide⟩

/-! ### Lemmas about `listBookmarks` -/

theorem jsIndexOf_cases (l : List String) (c : String) :
    jsIndexOf l c = -1 ∨ (0 ≤ jsIndexOf l c ∧ jsIndexOf l c < (l.length : Int)) := by
  unfold jsIndexOf
  cases h : l.findIdx? (fun x => x == c) with
  | none => left; rfl
  | some i =>
    right
    have hb := (List.findIdx?_eq_some_iff_findIdx_eq.mp h).1
    show 0 ≤ (i : Int) ∧ (i : Int) < (l.length : Int)
    constructor
    · omega
    · exact_mod_cast hb

theorem recLe_iff (co : List String) (a b : BookmarkRecord) :
    (decide (cmpRecords co a b ≤ 0) = true) ↔
      (rankOf co a < rankOf co b ∨ (rankOf co a = rankOf co b ∧ a.order ≤ b.order)) := by
  rw [decide_eq_true_eq]
  simp only [cmpRecords, rankOf]
  rcases jsIndexOf_cases co (normalizeCategory a.category) with ha | ha <;>
    rcases jsIndexOf_cases co (normalizeCategory b.category) with hb | hb <;>
      split_ifs <;> omega

theorem recLe_trans (co : List String) (a b c' : BookmarkRecord)
    (h1 : decide (cmpRecords co a b ≤ 0) = true)
    (h2 : decide (cmpRecords co b c' ≤ 0) = true) :
    decide (cmpRecords co a c' ≤ 0) = true := by
  rw [recLe_iff] at h1 h2 ⊢
  rcases h1 with h1 | ⟨h1, h1o⟩ <;> rcases h2 with h2 | ⟨h2, h2o⟩
  · left; omega
  · left; omega
  · left; omega
  · right; exact ⟨by omega, by omega⟩

theorem recLe_total (co : List String) (a b : BookmarkRecord) :
    (decide (cmpRecords co a b ≤ 0) || decide (cmpRecords co b a ≤ 0)) = true := by
  rw [Bool.or_eq_true, recLe_iff, recLe_iff]
  omega

theorem recLe_listedBefore (co : List String) (a b : BookmarkRecord)
    (h : decide (cmpRecords co a b ≤ 0) = true) : listedBefore co a b := by
  rw [decide_eq_true_eq] at h
  simp only [cmpRecords] at h
  unfold listedBefore
  by_cases hij : jsIndexOf co (normalizeCategory a.category) =
      jsIndexOf co (normalizeCategory b.category)
  · rw [if_neg (not_not_intro hij)] at h
    exact ⟨fun h1 => by rw [← hij]; exact h1, fun _ => le_of_eq hij, fun _ => by omega⟩
  · rw [if_pos hij] at h
    by_cases h1 : jsIndexOf co (normalizeCategory a.category) = -1
    · rw [if_pos h1] at h
      norm_num at h
    · rw [if_neg h1] at h
      by_cases h2 : jsIndexOf co (normalizeCategory b.category) = -1
      · rw [if_pos h2] at h
        exact ⟨fun hh => absurd hh h1, fun hh => absurd h2 hh,
          fun hcat => absurd (by rw [hcat]) hij⟩
      · rw [if_neg h2] at h
        exact ⟨fun hh => absurd hh h1, fun _ => by omega,
          fun hcat => absurd (by rw [hcat]) hij⟩

/-- C6: `listBookmarks` returns a permutation of all (row-mapped) bookmarks
in which no bookmark of an unlisted category precedes one of a listed
category, listed categories appear by ascending category-order index, and
any two bookmarks of the same normalized category appear by ascending
order. -/
theorem c6_list_sorted (co : List String) (s : List BookmarkRecord) :
    (listBookmarks co s).Perm (s.map readRow) ∧
    (listBookmarks co s).Pairwise (listedBefore co) := by
  constructor
  · have p1 : (((s.mergeSort (fun a b => decide (a.order ≤ b.order))).map
        readRow).mergeSort (fun a b => decide (cmpRecords co a b ≤ 0))).Perm
        ((s.mergeSort (fun a b => decide (a.order ≤ b.order))).map readRow) :=
      List.mergeSort_perm _ _
    have p2 : (s.mergeSort (fun a b => decide (a.order ≤ b.order))).Perm s :=
      List.mergeSort_perm _ _
    exact p1.trans (p2.map readRow)
  · have hs := List.sorted_mergeSort (recLe_trans co) (recLe_total co)
      ((s.mergeSort (fun a b => decide (a.order ≤ b.order))).map readRow)
    exact List.Pairwise.imp (fun hab => recLe_listedBefore co _ _ hab) hs
